import Mathlib

/-!
Shallow embedding of the header codec and SAM writer of rust-htslib
(`src/bam/header.rs` and `src/sam/mod.rs`).

Bytes are modelled as natural numbers (the byte values); a byte blob is a
`List Nat`.  Rust functions that can panic (`unwrap` on a failed regex
capture or on an out-of-bounds index) are modelled as `Option`-returning
functions, `none` standing for the panic: the parse either produces a whole
result or no result at all.
-/

namespace Htslib

/-- A byte blob: the list of byte values. -/
abbrev Bytes := List Nat

/-- Byte codes used by the header text format. -/
def tabByte : Nat := 9
def nlByte : Nat := 10
def colonByte : Nat := 58
def atByte : Nat := 64

/-- Character class `[A-Z]` of the record-type regex `@([A-Z][A-Z])`. -/
def isUpperByte (b : Nat) : Bool := 65 ≤ b && b ≤ 90

/-- Character class `[A-Za-z]` of the tag regex. -/
def isAlphaByte (b : Nat) : Bool := isUpperByte b || (97 ≤ b && b ≤ 122)

/-- Character class `[A-Za-z0-9]` of the tag regex. -/
def isAlnumByte (b : Nat) : Bool := isAlphaByte b || (48 ≤ b && b ≤ 57)

/-- Character class `[ -~]` (printable ASCII, 0x20–0x7E) of the tag regex. -/
def isPrintableByte (b : Nat) : Bool := 32 ≤ b && b ≤ 126

/-- `str::split(sep)`: split a blob at every occurrence of `sep`.
Always returns at least one (possibly empty) segment, like Rust's `split`. -/
def splitSep (sep : Nat) : Bytes → List Bytes
  | [] => [[]]
  | b :: rest =>
    match splitSep sep rest with
    | [] => if b = sep then [[], []] else [[b]]
    | s :: ss => if b = sep then [] :: s :: ss else (b :: s) :: ss

/-- `HeaderRecord` (src/bam/header.rs:101): a record-type blob (with the
leading `@` already attached by `new`) and the ordered list of pushed
`(tag, value)` pairs. -/
structure HeaderRecord where
  rec_type : Bytes
  tags : List (Bytes × Bytes)
deriving Repr, DecidableEq

/-- `HeaderRecord::new` (src/bam/header.rs:109): prepends `@` to the given
record-type bytes; no validation of length or content. -/
def HeaderRecord.new (rt : Bytes) : HeaderRecord :=
  { rec_type := atByte :: rt, tags := [] }

/-- `HeaderRecord::push_tag` (src/bam/header.rs:123): appends the pair
verbatim (the Rust side first renders the value with `ToString`; here the
value is taken as its rendered bytes). -/
def HeaderRecord.push_tag (r : HeaderRecord) (tag value : Bytes) : HeaderRecord :=
  { r with tags := r.tags ++ [(tag, value)] }

/-- `HeaderRecord::to_bytes` (src/bam/header.rs:128): record type, then for
each tag a tab, the tag, a colon and the value. -/
def HeaderRecord.to_bytes (r : HeaderRecord) : Bytes :=
  r.tags.foldl (fun out tv => out ++ tabByte :: (tv.1 ++ colonByte :: tv.2)) r.rec_type

/-- `Header` (src/bam/header.rs:13): an ordered list of raw record lines. -/
structure Header where
  records : List Bytes
deriving Repr, DecidableEq

/-- `Header::new` (src/bam/header.rs:25). -/
def Header.new : Header := { records := [] }

/-- The trailing-newline strip loop of `from_template` (src/bam/header.rs:37):
pop the last byte while it is `\n`. -/
def stripTrailingNewlines (l : Bytes) : Bytes :=
  (l.reverse.dropWhile (fun b => b = nlByte)).reverse

/-- `Header::from_template` (src/bam/header.rs:31): copy the source header
view's raw bytes, strip trailing newlines, store as a single line blob. -/
def Header.from_template (raw : Bytes) : Header :=
  { records := [stripTrailingNewlines raw] }

/-- `Header::push_record` (src/bam/header.rs:50). -/
def Header.push_record (h : Header) (r : HeaderRecord) : Header :=
  { records := h.records ++ [r.to_bytes] }

/-- `Header::push_comment` (src/bam/header.rs:56): appends `@CO` + tab +
comment as one line. -/
def Header.push_comment (h : Header) (comment : Bytes) : Header :=
  { records := h.records ++ [[atByte, 67, 79] ++ tabByte :: comment] }

/-- `Vec::join(&b'\n')`: the stored lines joined by a single `\n`. -/
def joinSep (sep : Nat) : List Bytes → Bytes
  | [] => []
  | [x] => x
  | x :: y :: rest => x ++ sep :: joinSep sep (y :: rest)

/-- `Header::to_bytes` (src/bam/header.rs:61). -/
def Header.to_bytes (h : Header) : Bytes :=
  joinSep nlByte h.records

/-- Leftmost match of the unanchored regex `@([A-Z][A-Z])`
(src/bam/header.rs:68) on a segment, returning capture group 1 (the two
letters).  `none` models `captures(..).unwrap()` panicking. -/
def recTypeCapture : Bytes → Option Bytes
  | 64 :: a :: rest =>
    match rest with
    | b :: rest2 =>
      if isUpperByte a && isUpperByte b then some [a, b]
      else recTypeCapture (a :: b :: rest2)
    | [] => none
  | _ :: rest => recTypeCapture rest
  | [] => none

/-- Leftmost match of the unanchored regex `([A-Za-z][A-Za-z0-9]):([ -~]+)`
(src/bam/header.rs:69) on a segment: capture 1 is the two tag bytes, capture
2 the maximal (greedy) printable run after the colon. -/
def tagCapture : Bytes → Option (Bytes × Bytes)
  | a :: b :: 58 :: c :: rest =>
    if isAlphaByte a && isAlnumByte b && isPrintableByte c then
      some ([a, b], c :: rest.takeWhile isPrintableByte)
    else tagCapture (b :: 58 :: c :: rest)
  | _ :: rest => tagCapture rest
  | [] => none

/-- `linear_map::LinearMap::insert`: replace in place if the key exists
(keeping its position), otherwise append — last write wins. -/
def lmInsert (k v : Bytes) : List (Bytes × Bytes) → List (Bytes × Bytes)
  | [] => [(k, v)]
  | (k', v') :: rest => if k' = k then (k, v) :: rest else (k', v') :: lmInsert k v rest

/-- One per-record tag mapping: insertion-ordered, duplicate tag overwrites. -/
abbrev TagMap := List (Bytes × Bytes)

/-- The grouped parse result: record-type code ↦ ordered list of tag maps
(modelled as an association list in first-seen key order). -/
abbrev Grouped := List (Bytes × List TagMap)

/-- `HashMap::entry(k).or_insert_with(Vec::new).push(v)`. -/
def hmPush (k : Bytes) (v : TagMap) : Grouped → Grouped
  | [] => [(k, [v])]
  | (k', vs) :: rest => if k' = k then (k', vs ++ [v]) :: rest else (k', vs) :: hmPush k v rest

/-- The tag loop of `Header::to_hashmap` (src/bam/header.rs:84–89): for each
remaining part, capture a tag/value pair (panic — `none` — if the capture
fails) and insert it into the per-line map. -/
def tagFold (acc : TagMap) : List Bytes → Option TagMap
  | [] => some acc
  | part :: rest =>
    match tagCapture part with
    | none => none
    | some tv => tagFold (lmInsert tv.1 tv.2 acc) rest

/-- The per-line body of `Header::to_hashmap` (src/bam/header.rs:74–89):
split on tabs, drop empty parts, capture the record type from the first part
(`parts[0]` — indexing an empty vector panics) and a tag/value from every
later part. -/
def parseLine (line : Bytes) : Option (Bytes × TagMap) :=
  match (splitSep tabByte line).filter (fun x => !x.isEmpty) with
  | [] => none
  | first :: rest =>
    match recTypeCapture first with
    | none => none
    | some rt =>
      match tagFold [] rest with
      | none => none
      | some tags => some (rt, tags)

/-- The line loop of `Header::to_hashmap` (src/bam/header.rs:73–94): parse
each line and push its tag map onto its record type's group. -/
def groupFold (m : Grouped) : List Bytes → Option Grouped
  | [] => some m
  | line :: rest =>
    match parseLine line with
    | none => none
    | some p => groupFold (hmPush p.1 p.2 m) rest

/-- `Header::to_hashmap` (src/bam/header.rs:65): split the serialized header
on newlines, drop empty lines, parse each line and group by record type.
`none` models any of the `unwrap` panics inside the loop. -/
def Header.to_hashmap (h : Header) : Option Grouped :=
  groupFold [] ((splitSep nlByte h.to_bytes).filter (fun x => !x.isEmpty))

/-! ## The SAM writer (src/sam/mod.rs)

The stream layer (`hts_open`, `sam_hdr_write`, `sam_write1`, htslib proper)
is external C code; its effect on the output stream is modelled from the
spec: the stream is a list of write events, the header write appends the
serialized header bytes, a record write is driven by a caller-supplied
layer oracle.  The Rust wrapper logic (error branches, ordering) is
translated from src/sam/mod.rs. -/

/-- One write event observed on the output stream. -/
inductive StreamWrite
  | headerBytes (b : Bytes)
  | recordBytes (r : Nat)
deriving Repr, DecidableEq

/-- Modelled from the spec: the opaque stream handle, carrying the ordered
list of write events performed on it. -/
structure SamFile where
  written : List StreamWrite
deriving Repr, DecidableEq

/-- `WriterError` (src/sam/mod.rs:98): the single construction error kind. -/
inductive WriterError
  | IOError
deriving Repr, DecidableEq

/-- `WriteError` (src/sam/mod.rs:105): the single record-write error kind. -/
inductive WriteError
  | Some
deriving Repr, DecidableEq

/-- RFC 3629 UTF-8 validity over a byte blob, as checked by the Rust
standard library (`str::from_utf8` / `Path::to_str`). -/
def isValidUtf8 : Bytes → Bool
  | [] => true
  | b :: rest =>
    if b ≤ 0x7F then isValidUtf8 rest
    else if 0xC2 ≤ b && b ≤ 0xDF then
      match rest with
      | c :: rest2 => isCont c && isValidUtf8 rest2
      | [] => false
    else if b = 0xE0 then
      match rest with
      | c :: d :: rest2 => (0xA0 ≤ c && c ≤ 0xBF) && isCont d && isValidUtf8 rest2
      | _ => false
    else if (0xE1 ≤ b && b ≤ 0xEC) || b = 0xEE || b = 0xEF then
      match rest with
      | c :: d :: rest2 => isCont c && isCont d && isValidUtf8 rest2
      | _ => false
    else if b = 0xED then
      match rest with
      | c :: d :: rest2 => (0x80 ≤ c && c ≤ 0x9F) && isCont d && isValidUtf8 rest2
      | _ => false
    else if b = 0xF0 then
      match rest with
      | c :: d :: e :: rest2 =>
        (0x90 ≤ c && c ≤ 0xBF) && isCont d && isCont e && isValidUtf8 rest2
      | _ => false
    else if 0xF1 ≤ b && b ≤ 0xF3 then
      match rest with
      | c :: d :: e :: rest2 => isCont c && isCont d && isCont e && isValidUtf8 rest2
      | _ => false
    else if b = 0xF4 then
      match rest with
      | c :: d :: e :: rest2 =>
        (0x80 ≤ c && c ≤ 0x8F) && isCont d && isCont e && isValidUtf8 rest2
      | _ => false
    else false
where
  /-- A UTF-8 continuation byte, `0x80–0xBF`. -/
  isCont (c : Nat) : Bool := 0x80 ≤ c && c ≤ 0xBF

/-- `hts_open` (src/sam/mod.rs:25): the external open call is reduced to a
success/failure oracle `openOk` (success = non-null handle); on failure the
wrapper returns `Err(WriterError::IOError)`. -/
def hts_open (openOk : Bool) : Except WriterError SamFile :=
  if openOk then .ok { written := [] } else .error .IOError

/-- The SAM `Writer` (src/sam/mod.rs:19): the stream handle plus the
retained header view (modelled by the header's serialized bytes, the
snapshot taken at construction). -/
structure Writer where
  f : SamFile
  header : Bytes
deriving Repr, DecidableEq

/-- `Writer::new` (src/sam/mod.rs:61): open the stream, then write the
serialized header before the `Writer` value exists.  The outer `Option`
models the `CString::new(path).unwrap()` panic on an interior NUL byte;
`sam_hdr_write`'s effect (appending the header bytes) is modelled from the
spec. -/
def Writer.new (openOk : Bool) (path : Bytes) (header : Header) :
    Option (Except WriterError Writer) :=
  if path.contains 0 then none
  else
    match hts_open openOk with
    | .error e => some (.error e)
    | .ok f =>
      some (.ok { f := { written := f.written ++ [.headerBytes header.to_bytes] },
                  header := header.to_bytes })

/-- `Writer::from_path` (src/sam/mod.rs:41): `path.to_str()` must succeed
(the path must be valid UTF-8), otherwise `Err(WriterError::IOError)` is
returned without consulting the open call. -/
def Writer.from_path (openOk : Bool) (path : Bytes) (header : Header) :
    Option (Except WriterError Writer) :=
  if isValidUtf8 path then Writer.new openOk path header
  else some (.error .IOError)

/-- `Writer::from_stdout` (src/sam/mod.rs:57): open `"-"` (byte 45). -/
def Writer.from_stdout (openOk : Bool) (header : Header) :
    Option (Except WriterError Writer) :=
  Writer.new openOk [45] header

/-- `Writer::write` (src/sam/mod.rs:79): invoke the external `sam_write1`
(modelled from the spec as a layer oracle transforming the stream and
returning the C return code); report `WriteError::Some` exactly when the
code is the sentinel `-1`, and keep the stream exactly as the layer left
it. -/
def Writer.write (layer : SamFile → Int × SamFile) (w : Writer) :
    Except WriteError Unit × Writer :=
  let r := layer w.f
  if r.1 = -1 then (.error .Some, { w with f := r.2 })
  else (.ok (), { w with f := r.2 })

/-! ## Derived definitions used to state the claims -/

/-- A record built by `HeaderRecord::new` followed by a sequence of
`push_tag` calls. -/
def buildRecord (rt : Bytes) (tags : List (Bytes × Bytes)) : HeaderRecord :=
  tags.foldl (fun r tv => r.push_tag tv.1 tv.2) (HeaderRecord.new rt)

/-- A header built purely by a sequence of `push_record` calls, one per
`(record type, tags)` specification. -/
def buildHeader (specs : List (Bytes × List (Bytes × Bytes))) : Header :=
  specs.foldl (fun h s => h.push_record (buildRecord s.1 s.2)) Header.new

/-- The serialized line of one built record: `@`, the record type, then one
tab-colon segment per tag. -/
def tagSeg (tv : Bytes × Bytes) : Bytes := tabByte :: (tv.1 ++ colonByte :: tv.2)

/-- The line `@rt\tT:V\t...` a built record serializes to. -/
def recordLine (rt : Bytes) (tags : List (Bytes × Bytes)) : Bytes :=
  (atByte :: rt) ++ tags.flatMap tagSeg

/-- The tag map the parser accumulates for one line's tag list
(insertion order, duplicate tag overwrites in place). -/
def tagMapOf (tags : List (Bytes × Bytes)) : TagMap :=
  tags.foldl (fun m tv => lmInsert tv.1 tv.2 m) []

/-- Lookup of one record type's group in a grouped parse result. -/
def groupOf (m : Grouped) (k : Bytes) : List TagMap :=
  match m with
  | [] => []
  | (k', vs) :: rest => if k' = k then vs else groupOf rest k

/-- A record type the parser accepts when produced by the builder: exactly
two uppercase ASCII letters. -/
def wfRecType (rt : Bytes) : Bool :=
  match rt with
  | [a, b] => isUpperByte a && isUpperByte b
  | _ => false

/-- A tag pair the parser accepts verbatim: a two-byte tag (letter then
alphanumeric) and a nonempty all-printable value. -/
def wfTag (tv : Bytes × Bytes) : Bool :=
  (match tv.1 with
   | [a, b] => isAlphaByte a && isAlnumByte b
   | _ => false) && !tv.2.isEmpty && tv.2.all isPrintableByte

/-- A well-formed record specification: well-formed type and tags. -/
def wfSpec (s : Bytes × List (Bytes × Bytes)) : Bool :=
  wfRecType s.1 && s.2.all wfTag

/-- Modelled from the spec: the tag regex matches at the head of a segment —
a letter, an alphanumeric, a colon, then at least one printable byte.  Used
to state where the unanchored regex can match. -/
def tagMatchAtHead : Bytes → Bool
  | a :: b :: 58 :: c :: _ => isAlphaByte a && isAlnumByte b && isPrintableByte c
  | _ => false

/-- A sequence of `write` calls, each driven by its own layer oracle,
keeping the final writer. -/
def writeAll (layers : List (SamFile → Int × SamFile)) (w : Writer) : Writer :=
  layers.foldl (fun w layer => (Writer.write layer w).2) w

/-- Modelled from the spec: a record write appends to the stream (both on
success and on failure the layer only ever adds events at the end). -/
def appendOnly (layer : SamFile → Int × SamFile) : Prop :=
  ∀ f, ∃ extra, (layer f).2.written = f.written ++ extra

/-! ## Lemmas about splitting and joining byte blobs -/

theorem splitSep_ne_nil (sep : Nat) (l : Bytes) : splitSep sep l ≠ [] := by
  induction l with
  | nil => simp [splitSep]
  | cons b rest ih =>
    obtain ⟨s, ss, hr⟩ : ∃ s ss, splitSep sep rest = s :: ss := by
      cases hr : splitSep sep rest with
      | nil => exact absurd hr ih
      | cons s ss => exact ⟨s, ss, rfl⟩
    rw [splitSep, hr]
    simp only []
    split <;> simp

theorem splitSep_cons_exists (sep : Nat) (l : Bytes) :
    ∃ s ss, splitSep sep l = s :: ss := by
  cases hr : splitSep sep l with
  | nil => exact absurd hr (splitSep_ne_nil sep l)
  | cons s ss => exact ⟨s, ss, rfl⟩

theorem splitSep_of_not_mem {sep : Nat} {l : Bytes} (h : sep ∉ l) : splitSep sep l = [l] := by
  induction l with
  | nil => simp [splitSep]
  | cons b rest ih =>
    have hb : ¬ b = sep := fun hb => h (hb ▸ List.mem_cons_self b rest)
    rw [splitSep, ih (fun hm => h (List.mem_cons_of_mem b hm))]
    simp [hb]

theorem splitSep_append {sep : Nat} {x : Bytes} (y : Bytes) (h : sep ∉ x) :
    splitSep sep (x ++ sep :: y) = x :: splitSep sep y := by
  induction x with
  | nil =>
    obtain ⟨s, ss, hy⟩ := splitSep_cons_exists sep y
    simp only [List.nil_append]
    rw [splitSep, hy]
    simp
  | cons a x ih =>
    have ha : ¬ a = sep := fun hb => h (hb ▸ List.mem_cons_self a x)
    have hx : sep ∉ x := fun hm => h (List.mem_cons_of_mem a hm)
    obtain ⟨s, ss, hy⟩ := splitSep_cons_exists sep y
    simp only [List.cons_append]
    rw [splitSep, ih hx, hy]
    simp [ha]

theorem splitSep_joinSep {sep : Nat} {lines : List Bytes}
    (h : ∀ l ∈ lines, sep ∉ l) (hne : lines ≠ []) :
    splitSep sep (joinSep sep lines) = lines := by
  induction lines with
  | nil => exact absurd rfl hne
  | cons x rest ih =>
    cases rest with
    | nil => exact splitSep_of_not_mem (h x (List.mem_cons_self x []))
    | cons y rest2 =>
      rw [joinSep, splitSep_append _ (h x (List.mem_cons_self x _))]
      rw [ih (fun l hl => h l (List.mem_cons_of_mem x hl)) (by simp)]

/-- Filtering out empty segments keeps a list of nonempty segments intact. -/
theorem filter_nonempty_of_all_nonempty {l : List Bytes} (h : ∀ x ∈ l, x ≠ []) :
    l.filter (fun x => !x.isEmpty) = l := by
  induction l with
  | nil => rfl
  | cons x rest ih =>
    rw [List.filter_cons]
    have hx : (!x.isEmpty) = true := by
      cases x with
      | nil => exact absurd rfl (h [] (List.mem_cons_self [] rest))
      | cons a b => rfl
    rw [if_pos hx, ih (fun y hy => h y (List.mem_cons_of_mem x hy))]

/-! ## Lemmas about the builder -/

theorem push_tag_fold (tags : List (Bytes × Bytes)) (r : HeaderRecord) :
    (tags.foldl (fun r tv => r.push_tag tv.1 tv.2) r).tags = r.tags ++ tags ∧
    (tags.foldl (fun r tv => r.push_tag tv.1 tv.2) r).rec_type = r.rec_type := by
  induction tags generalizing r with
  | nil => simp
  | cons tv rest ih =>
    rw [List.foldl_cons]
    refine ⟨?_, ?_⟩
    · rw [(ih (r.push_tag tv.1 tv.2)).1]
      simp [HeaderRecord.push_tag]
    · rw [(ih (r.push_tag tv.1 tv.2)).2]
      rfl

theorem foldl_append_flatMap {α β : Type} (f : α → List β) (xs : List α) (init : List β) :
    xs.foldl (fun out x => out ++ f x) init = init ++ xs.flatMap f := by
  induction xs generalizing init with
  | nil => simp
  | cons x rest ih => simp [ih, List.append_assoc]

theorem buildRecord_to_bytes (rt : Bytes) (tags : List (Bytes × Bytes)) :
    (buildRecord rt tags).to_bytes = recordLine rt tags := by
  have h := push_tag_fold tags (HeaderRecord.new rt)
  rw [HeaderRecord.to_bytes, buildRecord, h.1, h.2]
  simp only [HeaderRecord.new, List.nil_append]
  exact foldl_append_flatMap tagSeg tags (atByte :: rt)

theorem buildHeader_fold_records (specs : List (Bytes × List (Bytes × Bytes))) (h0 : Header) :
    (specs.foldl (fun h s => h.push_record (buildRecord s.1 s.2)) h0).records =
      h0.records ++ specs.map (fun s => recordLine s.1 s.2) := by
  induction specs generalizing h0 with
  | nil => simp
  | cons s rest ih =>
    rw [List.foldl_cons, ih]
    simp [Header.push_record, buildRecord_to_bytes, List.append_assoc]

theorem buildHeader_records (specs : List (Bytes × List (Bytes × Bytes))) :
    (buildHeader specs).records = specs.map (fun s => recordLine s.1 s.2) := by
  rw [buildHeader, buildHeader_fold_records]
  rfl

/-! ## Lemmas about the parser loops -/

theorem groupFold_none {lines : List Bytes} {m : Grouped}
    (h : ∃ l ∈ lines, parseLine l = none) : groupFold m lines = none := by
  induction lines generalizing m with
  | nil => simp at h
  | cons l rest ih =>
    obtain ⟨l0, hl0, hp⟩ := h
    rw [groupFold]
    cases List.mem_cons.mp hl0 with
    | inl heq =>
      rw [heq] at hp
      rw [hp]
    | inr hmem =>
      cases hpl : parseLine l with
      | none => rfl
      | some p =>
        simp only []
        exact ih ⟨l0, hmem, hp⟩

theorem head?_dropWhile_false (p : Nat → Bool) (l : Bytes) (x : Nat)
    (h : (l.dropWhile p).head? = some x) : p x = false := by
  induction l with
  | nil => simp [List.dropWhile] at h
  | cons a rest ih =>
    rw [List.dropWhile_cons] at h
    by_cases hp : p a
    · rw [if_pos hp] at h
      exact ih h
    · rw [if_neg hp] at h
      simp only [List.head?_cons, Option.some.injEq] at h
      rw [← h]
      exact Bool.eq_false_iff.mpr hp

/-! ## Claim theorems -/

/-- C9: serialization is deterministic — `to_bytes` is a function of the
stored record list alone, so calling it twice on an unmutated `Header`
yields identical byte sequences. -/
theorem to_bytes_deterministic (h1 h2 : Header) (h : h1.records = h2.records) :
    h1.to_bytes = h2.to_bytes :=
  congrArg (joinSep nlByte) h

/-- Witness for C9 at a concrete header. -/
theorem to_bytes_deterministic_witness :
    Header.to_bytes { records := [[64, 72, 68]] } = Header.to_bytes { records := [[64, 72, 68]] } :=
  to_bytes_deterministic { records := [[64, 72, 68]] } { records := [[64, 72, 68]] } rfl

/-- C5: a record built with `push_tag("SN","A")` then `push_tag("SN","B")`
serializes both tag segments in push order (its bytes contain
`SN:A\tSN:B`), and parsing the serialized header maps `SN` to `"B"`
(last write wins). -/
theorem push_tag_duplicate_last_write_wins :
    List.IsInfix [83, 78, 58, 65, 9, 83, 78, 58, 66]
      (((HeaderRecord.new [83, 81]).push_tag [83, 78] [65]).push_tag [83, 78] [66]).to_bytes
    ∧ (Header.new.push_record
        (((HeaderRecord.new [83, 81]).push_tag [83, 78] [65]).push_tag [83, 78] [66])).to_hashmap
      = some [([83, 81], [[([83, 78], [66])]])] := by
  refine ⟨⟨[64, 83, 81, 9], [], ?_⟩, ?_⟩ <;> rfl

/-- C7: `from_template` strips every trailing newline: the source bytes are
the serialized result followed by some run of `\n` bytes, and the result
never ends in `\n`. -/
theorem from_template_strips_trailing_newlines (raw : Bytes) :
    ∃ k, raw = (Header.from_template raw).to_bytes ++ List.replicate k nlByte ∧
      (Header.from_template raw).to_bytes.getLast? ≠ some nlByte := by
  have hto : (Header.from_template raw).to_bytes = stripTrailingNewlines raw := rfl
  rw [hto]
  have hsplit := List.takeWhile_append_dropWhile
    (p := fun b => decide (b = nlByte)) (l := raw.reverse)
  have hraw : raw = stripTrailingNewlines raw ++
      (raw.reverse.takeWhile (fun b => decide (b = nlByte))).reverse := by
    conv_lhs => rw [← List.reverse_reverse raw, ← hsplit]
    rw [List.reverse_append]
    rfl
  have hall : ∀ b ∈ (raw.reverse.takeWhile (fun b => decide (b = nlByte))).reverse, b = nlByte := by
    intro b hb
    have hb2 : b ∈ raw.reverse.takeWhile (fun b => decide (b = nlByte)) :=
      List.mem_reverse.mp hb
    have hp := @List.mem_takeWhile_imp Nat (fun b => decide (b = nlByte)) raw.reverse b hb2
    exact of_decide_eq_true hp
  refine ⟨(raw.reverse.takeWhile (fun b => decide (b = nlByte))).reverse.length, ?_, ?_⟩
  · rw [← List.eq_replicate_of_mem hall]
    exact hraw
  · intro hlast
    rw [stripTrailingNewlines, List.getLast?_reverse] at hlast
    have := head?_dropWhile_false _ _ _ hlast
    simp at this

/-- Witness for C7 at the concrete source `"A\n\n"`. -/
theorem from_template_strips_trailing_newlines_witness :
    ∃ k, [65, 10, 10] = (Header.from_template [65, 10, 10]).to_bytes ++ List.replicate k nlByte ∧
      (Header.from_template [65, 10, 10]).to_bytes.getLast? ≠ some nlByte :=
  from_template_strips_trailing_newlines [65, 10, 10]

/-- C10: `HeaderRecord::new` and `push_tag` are total and validate nothing:
for any record-type bytes and any tag/value pairs the built record
serializes them verbatim, and such a record can produce a line the parser
rejects (record type `"s"` yields a panic — `none` — from `to_hashmap`). -/
theorem builder_total_verbatim :
    (∀ (rt : Bytes) (tags : List (Bytes × Bytes)),
      (buildRecord rt tags).to_bytes =
        (atByte :: rt) ++ tags.flatMap (fun tv => tabByte :: (tv.1 ++ colonByte :: tv.2)))
    ∧ (Header.new.push_record (HeaderRecord.new [115])).to_hashmap = none := by
  exact ⟨fun rt tags => buildRecord_to_bytes rt tags, rfl⟩

/-- Witness for C10 at a one-byte record type and a one-byte tag. -/
theorem builder_total_verbatim_witness :
    (buildRecord [115] [([120], [33])]).to_bytes =
      (atByte :: [115]) ++ [([120], [33])].flatMap (fun tv => tabByte :: (tv.1 ++ colonByte :: tv.2)) :=
  builder_total_verbatim.1 [115] [([120], [33])]

/-- C1: a malformed line makes the whole parse fail with no partial result:
any header one of whose (nonempty) lines fails to parse yields `none`, and
in particular the blobs `"@SQ\tBADTAG"` (no colon in a tag segment) and
`"NOTATAG\tSN:1"` (no `@` + two uppercase letters in the first segment)
both fail. -/
theorem to_hashmap_malformed_line_fails :
    (∀ h : Header,
      (∃ line ∈ (splitSep nlByte h.to_bytes).filter (fun x => !x.isEmpty),
        parseLine line = none) → h.to_hashmap = none)
    ∧ Header.to_hashmap { records := [[64, 83, 81, 9, 66, 65, 68, 84, 65, 71]] } = none
    ∧ Header.to_hashmap { records := [[78, 79, 84, 65, 84, 65, 71, 9, 83, 78, 58, 49]] } = none := by
  refine ⟨fun h hex => ?_, rfl, rfl⟩
  rw [Header.to_hashmap]
  exact groupFold_none hex

/-- Witness for C1: the general all-or-nothing statement applied to the
concrete header `"@SQ\tBADTAG"`. -/
theorem to_hashmap_malformed_line_fails_witness :
    Header.to_hashmap { records := [[64, 83, 81, 9, 66, 65, 68, 84, 65, 71]] } = none :=
  to_hashmap_malformed_line_fails.1 { records := [[64, 83, 81, 9, 66, 65, 68, 84, 65, 71]] }
    ⟨[64, 83, 81, 9, 66, 65, 68, 84, 65, 71], by decide, by decide⟩

/-- Shifting the position quantifier of a match over one leading byte. -/
theorem exists_tagMatch_cons (x : Nat) (rest : Bytes) :
    (∃ i, tagMatchAtHead ((x :: rest).drop i) = true) ↔
      (tagMatchAtHead (x :: rest) = true ∨ ∃ i, tagMatchAtHead (rest.drop i) = true) := by
  constructor
  · rintro ⟨i, hi⟩
    cases i with
    | zero => exact Or.inl hi
    | succ j => exact Or.inr ⟨j, by simpa [List.drop_succ_cons] using hi⟩
  · rintro (h | ⟨i, hi⟩)
    · exact ⟨0, h⟩
    · exact ⟨i + 1, by simpa [List.drop_succ_cons] using hi⟩

/-- C6 (amended): the tag regex is applied unanchored — a segment yields a
capture exactly when the shape `[A-Za-z][A-Za-z0-9]:[\x20-\x7E]` matches at
SOME position of the segment, not necessarily at its start; a segment with
extra bytes before the tag (such as `"xxSN:1"`) is accepted, not rejected. -/
theorem tagCapture_isSome_iff (s : Bytes) :
    (tagCapture s).isSome = true ↔ ∃ i, tagMatchAtHead (s.drop i) = true := by
  induction s using tagCapture.induct with
  | case1 a b c rest h =>
    have hred : tagCapture (a :: b :: 58 :: c :: rest)
        = some ([a, b], c :: rest.takeWhile isPrintableByte) := by
      rw [tagCapture, if_pos h]
    have hm : tagMatchAtHead (a :: b :: 58 :: c :: rest) = true := h
    rw [hred, exists_tagMatch_cons]
    simp [hm]
  | case2 a b c rest h ih =>
    have hred : tagCapture (a :: b :: 58 :: c :: rest) = tagCapture (b :: 58 :: c :: rest) := by
      rw [tagCapture, if_neg h]
    have hm : tagMatchAtHead (a :: b :: 58 :: c :: rest) = false :=
      Bool.eq_false_iff.mpr h
    rw [hred, exists_tagMatch_cons, hm, ih]
    simp
  | case3 head rest hno ih =>
    have hred : tagCapture (head :: rest) = tagCapture rest := by
      rw [tagCapture.eq_def]
      split
      · rename_i heq
        injection heq with h1 h2
        exact (hno _ _ _ h2).elim
      · rename_i heq
        injection heq with h1 h2
        exact congrArg tagCapture h2.symm
      · rename_i heq
        exact absurd heq (by simp)
    have hmatch : tagMatchAtHead (head :: rest) = false := by
      rw [tagMatchAtHead.eq_def]
      split
      · rename_i heq
        injection heq with h1 h2
        exact (hno _ _ _ h2).elim
      · rfl
    rw [hred, exists_tagMatch_cons, hmatch, ih]
    simp
  | case4 => simp [tagCapture, tagMatchAtHead]

/-- Witness for C6: the segment `"xxSN:1"` has a match at position 2, so
the capture succeeds. -/
theorem tagCapture_isSome_iff_witness :
    (tagCapture [120, 120, 83, 78, 58, 49]).isSome = true :=
  (tagCapture_isSome_iff [120, 120, 83, 78, 58, 49]).mpr ⟨2, by decide⟩

/-- Counterexample to C6 as stated: parsing the line `"@SQ\txxSN:1"`, whose
second segment does NOT match the anchored shape
`^([A-Za-z][A-Za-z0-9]):([\x20-\x7E]+)$`, succeeds (tag `SN`, value `"1"`)
instead of failing. -/
theorem to_hashmap_accepts_prefixed_tag_segment :
    Header.to_hashmap { records := [[64, 83, 81, 9, 120, 120, 83, 78, 58, 49]] }
      = some [([83, 81], [[([83, 78], [49])]])] := rfl

/-- C8: `write` reports `WriteError::Some` exactly when the stream layer
returns the sentinel `-1`, succeeds otherwise, and in both cases the stream
is left exactly as the layer left it (no rollback), the retained header
view unchanged. -/
theorem write_error_iff_sentinel (layer : SamFile → Int × SamFile) (w : Writer) :
    ((Writer.write layer w).1 = .error .Some ↔ (layer w.f).1 = -1) ∧
    ((Writer.write layer w).1 = .ok () ↔ (layer w.f).1 ≠ -1) ∧
    (Writer.write layer w).2.f = (layer w.f).2 ∧
    (Writer.write layer w).2.header = w.header := by
  by_cases h : (layer w.f).1 = -1 <;>
    simp [Writer.write, h]

/-- Witness for C8 at a concrete layer returning the sentinel. -/
theorem write_error_iff_sentinel_witness :
    ((Writer.write (fun f => (-1, f)) { f := { written := [] }, header := [] }).1
      = .error .Some ↔ ((fun (f : SamFile) => ((-1 : Int), f)) { written := [] }).1 = -1) ∧
    ((Writer.write (fun f => (-1, f)) { f := { written := [] }, header := [] }).1
      = .ok () ↔ ((fun (f : SamFile) => ((-1 : Int), f)) { written := [] }).1 ≠ -1) ∧
    (Writer.write (fun f => (-1, f)) { f := { written := [] }, header := [] }).2.f
      = ((fun (f : SamFile) => ((-1 : Int), f)) { written := [] }).2 ∧
    (Writer.write (fun f => (-1, f)) { f := { written := [] }, header := [] }).2.header = [] :=
  write_error_iff_sentinel (fun f => (-1, f)) { f := { written := [] }, header := [] }

/-- A sequence of append-only writes only ever extends the stream. -/
theorem writeAll_append {layers : List (SamFile → Int × SamFile)}
    (hl : ∀ l ∈ layers, appendOnly l) (w : Writer) :
    ∃ extra, (writeAll layers w).f.written = w.f.written ++ extra := by
  induction layers generalizing w with
  | nil => exact ⟨[], by simp [writeAll]⟩
  | cons l rest ih =>
    have hw2 : (Writer.write l w).2.f = (l w.f).2 := by
      by_cases h : (l w.f).1 = -1 <;> simp [Writer.write, h]
    obtain ⟨e1, he1⟩ := hl l (List.mem_cons_self l rest) w.f
    obtain ⟨e2, he2⟩ := ih (fun x hx => hl x (List.mem_cons_of_mem _ hx)) (Writer.write l w).2
    refine ⟨e1 ++ e2, ?_⟩
    have hstep : writeAll (l :: rest) w = writeAll rest (Writer.write l w).2 := rfl
    rw [hstep, he2, hw2, he1, List.append_assoc]

/-- C3: construction writes the header before the `Writer` exists, and every
record write only appends, so after any sequence of `write` calls the first
stream event is the header bytes — never a record. -/
theorem header_written_before_records
    (openOk : Bool) (path : Bytes) (header : Header) (w : Writer)
    (layers : List (SamFile → Int × SamFile))
    (hconstr : Writer.new openOk path header = some (.ok w))
    (hl : ∀ l ∈ layers, appendOnly l) :
    (writeAll layers w).f.written.head? = some (.headerBytes header.to_bytes) := by
  have hw : w.f.written = [.headerBytes header.to_bytes] := by
    rw [Writer.new] at hconstr
    by_cases hnul : path.contains 0
    · rw [if_pos hnul] at hconstr
      exact Option.noConfusion hconstr
    · rw [if_neg hnul] at hconstr
      by_cases ho : openOk
      · rw [show hts_open openOk = .ok { written := [] } from by
          rw [hts_open, if_pos ho]] at hconstr
        injection hconstr with h1
        injection h1 with h2
        rw [← h2]
        rfl
      · rw [show hts_open openOk = .error .IOError from by
          rw [hts_open, if_neg ho]] at hconstr
        injection hconstr with h1
        exact Except.noConfusion h1
  obtain ⟨extra, hex⟩ := writeAll_append hl w
  rw [hex, hw]
  rfl

/-- Witness for C3: a concrete construction over stdout followed by one
successful record write; the first stream event is the header. -/
theorem header_written_before_records_witness :
    (writeAll [fun f => (0, { written := f.written ++ [.recordBytes 7] })]
      { f := { written := [.headerBytes []] }, header := [] }).f.written.head?
      = some (.headerBytes (Header.new).to_bytes) :=
  header_written_before_records true [45] Header.new
    { f := { written := [.headerBytes []] }, header := [] }
    [fun f => (0, { written := f.written ++ [.recordBytes 7] })]
    rfl
    (by
      intro l hl
      simp only [List.mem_singleton] at hl
      rw [hl]
      intro f
      exact ⟨[.recordBytes 7], rfl⟩)

/-- C4 (amended): with no interior NUL byte in the path (where the CString
conversion would panic), construction returns `some` result; `from_path`
fails exactly when the open call fails or the path is not valid UTF-8
(the latter without consulting the open call), `from_stdout` exactly when
the open call fails; `IOError` is the only error kind; and on success the
returned writer is already open with the header written and retained. -/
theorem writer_construction_error_classification
    (openOk : Bool) (path : Bytes) (header : Header) (hnul : path.contains 0 = false) :
    (∃ r, Writer.from_path openOk path header = some r ∧
      ((∃ e, r = .error e) ↔ (openOk = false ∨ isValidUtf8 path = false)) ∧
      (∀ e, r = .error e → e = .IOError) ∧
      (∀ w, r = .ok w → w.f.written = [.headerBytes header.to_bytes] ∧
        w.header = header.to_bytes)) ∧
    (∃ r, Writer.from_stdout openOk header = some r ∧
      ((∃ e, r = .error e) ↔ openOk = false) ∧
      (∀ e, r = .error e → e = .IOError) ∧
      (∀ w, r = .ok w → w.f.written = [.headerBytes header.to_bytes] ∧
        w.header = header.to_bytes)) := by
  have hok : ∀ e w, (Except.error e : Except WriterError Writer) = .ok w → False := by
    intro e w h
    exact Except.noConfusion h
  have hnul' : (0 : Nat) ∉ path := by simpa using hnul
  constructor
  · by_cases hv : isValidUtf8 path
    · by_cases ho : openOk
      · refine ⟨.ok ⟨⟨[.headerBytes header.to_bytes]⟩, header.to_bytes⟩, ?_, ?_, ?_, ?_⟩
        · simp [Writer.from_path, Writer.new, hts_open, hv, ho, hnul']
        · constructor
          · rintro ⟨e, he⟩
            exact Except.noConfusion he
          · rintro (h | h)
            · rw [ho] at h
              exact Bool.noConfusion h
            · rw [hv] at h
              exact Bool.noConfusion h
        · intro e he
          exact Except.noConfusion he
        · intro w hw
          injection hw with hw
          rw [← hw]
          exact ⟨rfl, rfl⟩
      · refine ⟨.error .IOError, ?_, ?_, ?_, ?_⟩
        · simp [Writer.from_path, Writer.new, hts_open, hv, ho, hnul']
        · exact ⟨fun _ => Or.inl (by simpa using ho), fun _ => ⟨.IOError, rfl⟩⟩
        · intro e he
          cases e
          rfl
        · intro w hw
          exact (hok _ _ hw).elim
    · refine ⟨.error .IOError, ?_, ?_, ?_, ?_⟩
      · simp [Writer.from_path, hv]
      · exact ⟨fun _ => Or.inr (by simpa using hv), fun _ => ⟨.IOError, rfl⟩⟩
      · intro e he
        cases e
        rfl
      · intro w hw
        exact (hok _ _ hw).elim
  · by_cases ho : openOk
    · refine ⟨.ok ⟨⟨[.headerBytes header.to_bytes]⟩, header.to_bytes⟩, ?_, ?_, ?_, ?_⟩
      · simp [Writer.from_stdout, Writer.new, hts_open, ho]
      · constructor
        · rintro ⟨e, he⟩
          exact Except.noConfusion he
        · intro h
          rw [ho] at h
          exact Bool.noConfusion h
      · intro e he
        exact Except.noConfusion he
      · intro w hw
        injection hw with hw
        rw [← hw]
        exact ⟨rfl, rfl⟩
    · refine ⟨.error .IOError, ?_, ?_, ?_, ?_⟩
      · simp [Writer.from_stdout, Writer.new, hts_open, ho]
      · exact ⟨fun _ => by simpa using ho, fun _ => ⟨.IOError, rfl⟩⟩
      · intro e he
        cases e
        rfl
      · intro w hw
        exact (hok _ _ hw).elim

/-- Witness for C4 at a valid path and a succeeding open call. -/
theorem writer_construction_error_classification_witness :
    (∃ r, Writer.from_path true [47] Header.new = some r ∧
      ((∃ e, r = .error e) ↔ (true = false ∨ isValidUtf8 [47] = false)) ∧
      (∀ e, r = .error e → e = .IOError) ∧
      (∀ w, r = .ok w → w.f.written = [.headerBytes Header.new.to_bytes] ∧
        w.header = Header.new.to_bytes)) ∧
    (∃ r, Writer.from_stdout true Header.new = some r ∧
      ((∃ e, r = .error e) ↔ true = false) ∧
      (∀ e, r = .error e → e = .IOError) ∧
      (∀ w, r = .ok w → w.f.written = [.headerBytes Header.new.to_bytes] ∧
        w.header = Header.new.to_bytes)) :=
  writer_construction_error_classification true [47] Header.new (by decide)

/-- Counterexample to C4 as stated: on a non-UTF-8 path (byte `0xFF`) with
an open call that would SUCCEED, `from_path` still returns `IOError` — so
"an IO-open error if and only if the stream-open call signals failure" is
false: the error here does not come from the open call. -/
theorem from_path_invalid_utf8_ioerror :
    Writer.from_path true [255] Header.new = some (.error .IOError) := rfl

/-! ## Round-trip lemmas: well-formed built records parse back -/

theorem isUpperByte_ne_sep {b : Nat} (h : isUpperByte b = true) :
    b ≠ tabByte ∧ b ≠ nlByte := by
  simp [isUpperByte] at h
  refine ⟨?_, ?_⟩ <;> simp [tabByte, nlByte] <;> omega

theorem isAlnumByte_ne_sep {b : Nat} (h : isAlnumByte b = true) :
    b ≠ tabByte ∧ b ≠ nlByte := by
  simp [isAlnumByte, isAlphaByte, isUpperByte] at h
  refine ⟨?_, ?_⟩ <;> simp [tabByte, nlByte] <;> omega

theorem isAlphaByte_isAlnumByte {b : Nat} (h : isAlphaByte b = true) :
    isAlnumByte b = true := by
  simp [isAlnumByte, h]

theorem isPrintableByte_ne_sep {b : Nat} (h : isPrintableByte b = true) :
    b ≠ tabByte ∧ b ≠ nlByte := by
  simp [isPrintableByte] at h
  refine ⟨?_, ?_⟩ <;> simp [tabByte, nlByte] <;> omega

theorem mem_recordLine {c : Nat} {rt : Bytes} {tags : List (Bytes × Bytes)}
    (hc : c ∈ recordLine rt tags) :
    c = atByte ∨ c ∈ rt ∨ c = tabByte ∨ c = colonByte ∨
      ∃ tv ∈ tags, c ∈ tv.1 ∨ c ∈ tv.2 := by
  rcases List.mem_append.mp hc with h | h
  · rcases List.mem_cons.mp h with h | h
    · exact Or.inl h
    · exact Or.inr (Or.inl h)
  · obtain ⟨tv, htv, hmem⟩ := List.mem_flatMap.mp h
    rcases List.mem_cons.mp hmem with h | h
    · exact Or.inr (Or.inr (Or.inl h))
    · rcases List.mem_append.mp h with h | h
      · exact Or.inr (Or.inr (Or.inr (Or.inr ⟨tv, htv, Or.inl h⟩)))
      · rcases List.mem_cons.mp h with h | h
        · exact Or.inr (Or.inr (Or.inr (Or.inl h)))
        · exact Or.inr (Or.inr (Or.inr (Or.inr ⟨tv, htv, Or.inr h⟩)))

theorem wfRecType_bytes {rt : Bytes} (h : wfRecType rt = true) :
    ∃ a b, rt = [a, b] ∧ isUpperByte a = true ∧ isUpperByte b = true := by
  rcases rt with _ | ⟨a, _ | ⟨b, _ | ⟨x, r⟩⟩⟩ <;> simp [wfRecType] at h
  exact ⟨a, b, rfl, h.1, h.2⟩

theorem wfTag_bytes {tv : Bytes × Bytes} (h : wfTag tv = true) :
    (∃ a b, tv.1 = [a, b] ∧ isAlphaByte a = true ∧ isAlnumByte b = true) ∧
      tv.2 ≠ [] ∧ ∀ c ∈ tv.2, isPrintableByte c = true := by
  obtain ⟨⟨h1, h2⟩, h3⟩ := by
    simpa [wfTag, Bool.and_eq_true] using h
  refine ⟨?_, by simpa using h2, fun c hc => h3 c hc⟩
  rcases htv : tv.1 with _ | ⟨a, _ | ⟨b, _ | ⟨x, r⟩⟩⟩ <;> rw [htv] at h1 <;> simp at h1
  exact ⟨a, b, rfl, h1.1, h1.2⟩

theorem wfTag_no_sep {tv : Bytes × Bytes} (h : wfTag tv = true) (sep : Nat)
    (hsep : sep = tabByte ∨ sep = nlByte) :
    sep ∉ tv.1 ∧ sep ∉ tv.2 := by
  obtain ⟨⟨a, b, h1, ha, hb⟩, hv, hvp⟩ := wfTag_bytes h
  constructor
  · rw [h1]
    intro hmem
    rcases List.mem_cons.mp hmem with hx | hx
    · have := isAlnumByte_ne_sep (isAlphaByte_isAlnumByte ha)
      rcases hsep with rfl | rfl
      · exact this.1 hx.symm
      · exact this.2 hx.symm
    · rcases List.mem_cons.mp hx with hx | hx
      · have := isAlnumByte_ne_sep hb
        rcases hsep with rfl | rfl
        · exact this.1 hx.symm
        · exact this.2 hx.symm
      · simp at hx
  · intro hmem
    have := isPrintableByte_ne_sep (hvp sep hmem)
    rcases hsep with rfl | rfl
    · exact this.1 rfl
    · exact this.2 rfl

theorem recordLine_no_nl {rt : Bytes} {tags : List (Bytes × Bytes)}
    (hrt : wfRecType rt = true) (htags : ∀ tv ∈ tags, wfTag tv = true) :
    nlByte ∉ recordLine rt tags := by
  intro hmem
  rcases mem_recordLine hmem with h | h | h | h | ⟨tv, htv, h | h⟩
  · simp [nlByte, atByte] at h
  · obtain ⟨a, b, hab, ha, hb⟩ := wfRecType_bytes hrt
    rw [hab] at h
    rcases List.mem_cons.mp h with h | h
    · exact (isUpperByte_ne_sep ha).2 h.symm
    · rcases List.mem_cons.mp h with h | h
      · exact (isUpperByte_ne_sep hb).2 h.symm
      · simp at h
  · simp [nlByte, tabByte] at h
  · simp [nlByte, colonByte] at h
  · exact (wfTag_no_sep (htags tv htv) nlByte (Or.inr rfl)).1 h
  · exact (wfTag_no_sep (htags tv htv) nlByte (Or.inr rfl)).2 h

theorem recordLine_no_tab_first {rt : Bytes} (hrt : wfRecType rt = true) :
    tabByte ∉ (atByte :: rt) := by
  intro hmem
  rcases List.mem_cons.mp hmem with h | h
  · simp [tabByte, atByte] at h
  · obtain ⟨a, b, hab, ha, hb⟩ := wfRecType_bytes hrt
    rw [hab] at h
    rcases List.mem_cons.mp h with h | h
    · exact (isUpperByte_ne_sep ha).1 h.symm
    · rcases List.mem_cons.mp h with h | h
      · exact (isUpperByte_ne_sep hb).1 h.symm
      · simp at h

theorem splitSep_first_flatMap (first : Bytes) (tags : List (Bytes × Bytes))
    (h1 : tabByte ∉ first)
    (h2 : ∀ tv ∈ tags, tabByte ∉ (tv.1 ++ colonByte :: tv.2)) :
    splitSep tabByte (first ++ tags.flatMap tagSeg)
      = first :: tags.map (fun tv => tv.1 ++ colonByte :: tv.2) := by
  induction tags generalizing first with
  | nil =>
    simp only [List.flatMap_nil, List.append_nil, List.map_nil]
    exact splitSep_of_not_mem h1
  | cons tv rest ih =>
    have hshape : first ++ (tv :: rest).flatMap tagSeg
        = first ++ tabByte :: ((tv.1 ++ colonByte :: tv.2) ++ rest.flatMap tagSeg) := by
      rw [List.flatMap_cons, tagSeg]
      simp [List.append_assoc]
    rw [hshape, splitSep_append _ h1,
      ih (tv.1 ++ colonByte :: tv.2) (h2 tv (List.mem_cons_self tv rest))
        (fun x hx => h2 x (List.mem_cons_of_mem tv hx))]
    simp

theorem recTypeCapture_wf {a b : Nat} (ha : isUpperByte a = true) (hb : isUpperByte b = true) :
    recTypeCapture (atByte :: [a, b]) = some [a, b] := by
  have : recTypeCapture (64 :: a :: [b]) = some [a, b] := by
    rw [recTypeCapture]
    simp [ha, hb]
  exact this

theorem tagCapture_wf {a b : Nat} {v : Bytes} (ha : isAlphaByte a = true)
    (hb : isAlnumByte b = true) (hv : v ≠ []) (hvp : ∀ c ∈ v, isPrintableByte c = true) :
    tagCapture ([a, b] ++ colonByte :: v) = some ([a, b], v) := by
  cases v with
  | nil => exact absurd rfl hv
  | cons c v2 =>
    have hshape : ([a, b] ++ colonByte :: (c :: v2)) = a :: b :: 58 :: c :: v2 := rfl
    rw [hshape, tagCapture,
      if_pos (by simp [ha, hb, hvp c (List.mem_cons_self c v2)])]
    rw [List.takeWhile_eq_self_iff.mpr (fun x hx => hvp x (List.mem_cons_of_mem c hx))]

theorem tagFold_wf (tags : List (Bytes × Bytes)) (acc : TagMap)
    (h : ∀ tv ∈ tags, wfTag tv = true) :
    tagFold acc (tags.map (fun tv => tv.1 ++ colonByte :: tv.2))
      = some (tags.foldl (fun m tv => lmInsert tv.1 tv.2 m) acc) := by
  induction tags generalizing acc with
  | nil => rfl
  | cons tv rest ih =>
    obtain ⟨⟨a, b, h1, ha, hb⟩, hv, hvp⟩ := wfTag_bytes (h tv (List.mem_cons_self tv rest))
    have hcap : tagCapture (tv.1 ++ colonByte :: tv.2) = some (tv.1, tv.2) := by
      rw [h1]
      exact tagCapture_wf ha hb hv hvp
    rw [List.map_cons, tagFold, hcap]
    simp only []
    rw [List.foldl_cons]
    exact ih (lmInsert tv.1 tv.2 acc) (fun x hx => h x (List.mem_cons_of_mem tv hx))

theorem parseLine_recordLine {rt : Bytes} {tags : List (Bytes × Bytes)}
    (hrt : wfRecType rt = true) (htags : ∀ tv ∈ tags, wfTag tv = true) :
    parseLine (recordLine rt tags) = some (rt, tagMapOf tags) := by
  obtain ⟨a, b, hab, ha, hb⟩ := wfRecType_bytes hrt
  have hsplit : splitSep tabByte (recordLine rt tags)
      = (atByte :: rt) :: tags.map (fun tv => tv.1 ++ colonByte :: tv.2) := by
    rw [recordLine]
    exact splitSep_first_flatMap (atByte :: rt) tags (recordLine_no_tab_first hrt)
      (fun tv htv hmem => by
        rcases List.mem_append.mp hmem with hx | hx
        · exact (wfTag_no_sep (htags tv htv) tabByte (Or.inl rfl)).1 hx
        · rcases List.mem_cons.mp hx with hx | hx
          · simp [tabByte, colonByte] at hx
          · exact (wfTag_no_sep (htags tv htv) tabByte (Or.inl rfl)).2 hx)
  have hfilter : ((atByte :: rt) :: tags.map (fun tv => tv.1 ++ colonByte :: tv.2)).filter
      (fun x => !x.isEmpty) = (atByte :: rt) :: tags.map (fun tv => tv.1 ++ colonByte :: tv.2) := by
    apply filter_nonempty_of_all_nonempty
    intro x hx
    rcases List.mem_cons.mp hx with hx | hx
    · rw [hx]
      simp
    · obtain ⟨tv, htv, hseg⟩ := List.mem_map.mp hx
      rw [← hseg]
      rcases htv1 : tv.1 with _ | ⟨y, ys⟩ <;> simp
  rw [parseLine, hsplit, hfilter]
  simp only []
  rw [hab, recTypeCapture_wf ha hb, ← hab]
  rw [tagFold_wf tags [] htags]
  rfl

theorem groupFold_wf (specs : List (Bytes × List (Bytes × Bytes))) (m : Grouped)
    (h : ∀ s ∈ specs, wfSpec s = true) :
    groupFold m (specs.map (fun s => recordLine s.1 s.2))
      = some (specs.foldl (fun m s => hmPush s.1 (tagMapOf s.2) m) m) := by
  induction specs generalizing m with
  | nil => rfl
  | cons s rest ih =>
    have hs := h s (List.mem_cons_self s rest)
    rw [wfSpec, Bool.and_eq_true] at hs
    have hparse : parseLine (recordLine s.1 s.2) = some (s.1, tagMapOf s.2) :=
      parseLine_recordLine hs.1 (fun tv htv => List.all_eq_true.mp hs.2 tv htv)
    rw [List.map_cons, groupFold, hparse]
    simp only []
    rw [List.foldl_cons]
    exact ih (hmPush s.1 (tagMapOf s.2) m) (fun x hx => h x (List.mem_cons_of_mem s hx))

theorem buildHeader_to_hashmap (specs : List (Bytes × List (Bytes × Bytes)))
    (h : ∀ s ∈ specs, wfSpec s = true) :
    (buildHeader specs).to_hashmap
      = some (specs.foldl (fun m s => hmPush s.1 (tagMapOf s.2) m) []) := by
  cases hspecs : specs with
  | nil => rfl
  | cons s0 rest =>
    rw [← hspecs]
    have hwf : ∀ s ∈ specs, wfSpec s = true := h
    have hlines_no_nl : ∀ l ∈ specs.map (fun s => recordLine s.1 s.2), nlByte ∉ l := by
      intro l hl
      obtain ⟨s, hs, hseg⟩ := List.mem_map.mp hl
      rw [← hseg]
      have hwfs := hwf s hs
      rw [wfSpec, Bool.and_eq_true] at hwfs
      exact recordLine_no_nl hwfs.1 (fun tv htv => List.all_eq_true.mp hwfs.2 tv htv)
    have hnonempty : specs.map (fun s => recordLine s.1 s.2) ≠ [] := by
      rw [hspecs]
      simp
    rw [Header.to_hashmap,
      show (buildHeader specs).to_bytes = joinSep nlByte (specs.map (fun s => recordLine s.1 s.2))
        from by rw [Header.to_bytes, buildHeader_records],
      splitSep_joinSep hlines_no_nl hnonempty,
      filter_nonempty_of_all_nonempty (by
        intro x hx
        obtain ⟨s, hs, hseg⟩ := List.mem_map.mp hx
        rw [← hseg, recordLine]
        simp),
      groupFold_wf specs [] hwf]

theorem hmPush_keys (k0 : Bytes) (v : TagMap) (m : Grouped) (k : Bytes) :
    k ∈ (hmPush k0 v m).map Prod.fst ↔ (k ∈ m.map Prod.fst ∨ k = k0) := by
  induction m with
  | nil => simp [hmPush]
  | cons p rest ih =>
    obtain ⟨k', vs⟩ := p
    rw [hmPush]
    by_cases hk : k' = k0
    · rw [if_pos hk]
      subst hk
      simp only [List.map_cons, List.mem_cons]
      tauto
    · rw [if_neg hk]
      simp only [List.map_cons, List.mem_cons]
      rw [ih]
      tauto

theorem groupOf_hmPush (k0 : Bytes) (v : TagMap) (m : Grouped) (k : Bytes) :
    groupOf (hmPush k0 v m) k = groupOf m k ++ (if k = k0 then [v] else []) := by
  induction m with
  | nil =>
    by_cases hk : k0 = k
    · subst hk
      simp [hmPush, groupOf]
    · have hk' : ¬ k = k0 := fun he => hk he.symm
      simp [hmPush, groupOf, hk, hk']
  | cons p rest ih =>
    obtain ⟨k', vs⟩ := p
    by_cases hk : k' = k0
    · subst hk
      by_cases hkk : k' = k
      · subst hkk
        simp [hmPush, groupOf]
      · have hkk' : ¬ k = k' := fun he => hkk he.symm
        simp [hmPush, groupOf, hkk, hkk']
    · by_cases hkk : k' = k
      · subst hkk
        have hk0 : ¬ k' = k0 := hk
        simp [hmPush, groupOf, hk0]
      · simp [hmPush, groupOf, hk, hkk, ih]

theorem foldl_hmPush_groupOf (specs : List (Bytes × List (Bytes × Bytes)))
    (m0 : Grouped) (k : Bytes) :
    groupOf (specs.foldl (fun m s => hmPush s.1 (tagMapOf s.2) m) m0) k
      = groupOf m0 k ++ (specs.filter (fun s => s.1 = k)).map (fun s => tagMapOf s.2) := by
  induction specs generalizing m0 with
  | nil => simp
  | cons s rest ih =>
    rw [List.foldl_cons, ih, groupOf_hmPush, List.filter_cons]
    by_cases hk : s.1 = k
    · simp [hk, List.append_assoc]
    · have hk' : ¬ k = s.1 := fun he => hk he.symm
      simp [hk, hk']

theorem foldl_hmPush_keys (specs : List (Bytes × List (Bytes × Bytes)))
    (m0 : Grouped) (k : Bytes) :
    k ∈ (specs.foldl (fun m s => hmPush s.1 (tagMapOf s.2) m) m0).map Prod.fst
      ↔ (k ∈ m0.map Prod.fst ∨ k ∈ specs.map Prod.fst) := by
  induction specs generalizing m0 with
  | nil => simp
  | cons s rest ih =>
    rw [List.foldl_cons, ih, hmPush_keys]
    simp only [List.map_cons, List.mem_cons]
    tauto

/-- C2 (amended): for a header built purely from `push_record` calls whose
records are well formed for the parser (two uppercase letters of record
type; tags a letter + an alphanumeric with nonempty printable values),
parsing `to_bytes` succeeds and the grouped result's key set is exactly the
set of pushed record-type codes, each code's group being the tag maps of
the records pushed under it, in push order (so its length is the number of
records pushed under that code). -/
theorem to_hashmap_roundtrip (specs : List (Bytes × List (Bytes × Bytes)))
    (h : ∀ s ∈ specs, wfSpec s = true) :
    ∃ m, (buildHeader specs).to_hashmap = some m ∧
      (∀ k, k ∈ m.map Prod.fst ↔ k ∈ specs.map Prod.fst) ∧
      (∀ k, groupOf m k = (specs.filter (fun s => s.1 = k)).map (fun s => tagMapOf s.2)) ∧
      (∀ k, (groupOf m k).length = (specs.filter (fun s => s.1 = k)).length) := by
  refine ⟨_, buildHeader_to_hashmap specs h, ?_, ?_, ?_⟩
  · intro k
    rw [foldl_hmPush_keys]
    simp
  · intro k
    rw [foldl_hmPush_groupOf]
    rfl
  · intro k
    rw [foldl_hmPush_groupOf]
    simp [groupOf]

/-- Witness for C2 at a concrete two-record header (`@HD VN:1.6`,
`@SQ SN:chr1`). -/
theorem to_hashmap_roundtrip_witness :
    ∃ m, (buildHeader [([72, 68], [([86, 78], [49, 46, 54])]),
        ([83, 81], [([83, 78], [99, 104, 114, 49])])]).to_hashmap = some m ∧
      (∀ k, k ∈ m.map Prod.fst ↔ k ∈ [([72, 68], [([86, 78], [49, 46, 54])]),
        ([83, 81], [([83, 78], [99, 104, 114, 49])])].map Prod.fst) ∧
      (∀ k, groupOf m k = ([([72, 68], [([86, 78], [49, 46, 54])]),
        ([83, 81], [([83, 78], [99, 104, 114, 49])])].filter
          (fun s => s.1 = k)).map (fun s => tagMapOf s.2)) ∧
      (∀ k, (groupOf m k).length = ([([72, 68], [([86, 78], [49, 46, 54])]),
        ([83, 81], [([83, 78], [99, 104, 114, 49])])].filter (fun s => s.1 = k)).length) :=
  to_hashmap_roundtrip [([72, 68], [([86, 78], [49, 46, 54])]),
    ([83, 81], [([83, 78], [99, 104, 114, 49])])] (by decide)

/-- Counterexample to C2 as stated: a header built purely from one
`push_comment ("hello")` call does not parse to a grouped mapping at all —
the comment segment has no colon, so `to_hashmap` fails (`none`) instead of
producing a mapping keyed by the pushed record types. -/
theorem to_hashmap_comment_roundtrip_fails :
    (Header.new.push_comment [104, 101, 108, 108, 111]).to_hashmap = none := rfl

end Htslib
